import Mathlib

/-!
Shallow embedding of the agent-skills CLI (src/cli/index.ts, src/core/skillsdb.ts).

The logic under verification is string processing and decision logic around
I/O calls.  Every I/O outcome (HTTP response, git-clone result, per-pair copy
result) is passed in explicitly, and the embedded functions reproduce the
source's control flow over those outcomes.  JavaScript string operations are
embedded as executable functions on `List Char` (`String.data`) so that every
claim can also be evaluated on concrete inputs; the JS regexes of the source
are embedded as dedicated matcher functions with the same match semantics
(leftmost unanchored search, greedy character classes, `.` excluding line
terminators).
-/

namespace AgentSkills

/-- Character list of a JS string. -/
abbrev Chars := List Char

/-- JavaScript string truthiness for an optional string: `undefined` and the
empty string are falsy; everything else is truthy. -/
def strTruthy : Option String → Bool
  | none => false
  | some s => s ≠ ""

/-- Whether an `Except` is in the error state (a thrown JS exception). -/
def isErr {ε α : Type} : Except ε α → Bool
  | .error _ => true
  | .ok _ => false

/-- `a.toLowerCase() === b.toLowerCase()` on JS strings. -/
def lowerEq (a b : String) : Bool :=
  a.data.map Char.toLower == b.data.map Char.toLower

/-- `String.prototype.trim`: strip leading and trailing whitespace. -/
def trimChars (l : Chars) : Chars :=
  ((l.dropWhile Char.isWhitespace).reverse.dropWhile Char.isWhitespace).reverse

/-- `String.prototype.split('/')`: split at every `/`; `""` splits to `[""]`. -/
def splitOnSlash : Chars → List Chars
  | [] => [[]]
  | c :: cs =>
    let rest := splitOnSlash cs
    if c = '/' then [] :: rest
    else
      match rest with
      | [] => [[c]]
      | r :: rs => (c :: r) :: rs

/-- `Array.prototype.join('/')`. -/
def joinSlash : List Chars → Chars
  | [] => []
  | [p] => p
  | p :: ps => p ++ '/' :: joinSlash ps

/-! ## Skills database client (src/core/skillsdb.ts) -/

/-- `DBSkill` record from the remote database (skillsdb.ts `interface DBSkill`).
Fields irrelevant to the verified claims (avatar, assets, flags) are omitted. -/
structure DBSkill where
  id : String
  name : String
  author : String
  scoped_name : String
  description : String
  stars : Nat
  forks : Nat
  github_url : String
  raw_url : String
  repo_full_name : String
  path : String
  branch : String
  deriving Repr, DecidableEq

/-- `SkillsDBResult` shape returned by the API. -/
structure SkillsDBResult where
  skills : List DBSkill
  total : Nat
  deriving Repr, DecidableEq

/-- Sort keys accepted by the API (skillsdb.ts `FetchOptions.sortBy`). -/
inductive SortBy where
  | stars
  | recent
  | name
  deriving Repr, DecidableEq

/-- `FetchOptions` for `fetchFromDB` (skillsdb.ts). `none` encodes an absent
(undefined) option. -/
structure FetchOptions where
  search : Option String := none
  author : Option String := none
  category : Option String := none
  limit : Option Nat := none
  offset : Option Nat := none
  sortBy : Option SortBy := none
  deriving Repr, DecidableEq

/-- Outcome of the one HTTP `fetch` performed by `fetchFromDB`: either the
network layer throws, or a response arrives with a status code and a body
(`none` body = the `res.json()` call throws). -/
inductive HttpOutcome where
  | networkError (msg : String)
  | response (status : Nat) (body : Option SkillsDBResult)
  deriving Repr

/-- `Response.ok` of the WHATWG fetch API: status in the range 200–299. -/
def resOk (status : Nat) : Bool := 200 ≤ status && status ≤ 299

/-- `fetchFromDB` (skillsdb.ts lines 77–103): a non-ok status throws
`API error: <status>`, and every throw inside the `try` (network failure,
non-2xx, JSON parse failure) is re-wrapped as `Failed to fetch skills: ...`. -/
def fetchFromDB (outcome : HttpOutcome) : Except String SkillsDBResult :=
  match outcome with
  | .networkError msg => .error ("Failed to fetch skills: " ++ msg)
  | .response status body =>
    if resOk status then
      match body with
      | some r => .ok r
      | none => .error "Failed to fetch skills: SyntaxError"
    else
      .error ("Failed to fetch skills: Error: API error: " ++ toString status)

/-- `parseScopedName` (skillsdb.ts lines 60–72): strip one leading `@`, trim,
and when a slash is present split into author (before the first `/`) and name
(the rest, rejoined on `/`), trimming each. -/
def parseScopedName (input : String) : Option String × String :=
  let raw := input.data
  let noAt := match raw with
    | '@' :: rest => rest
    | l => l
  let clean := trimChars noAt
  if clean.contains '/' then
    match splitOnSlash clean with
    | [] => (none, String.mk clean)
    | author :: nameParts =>
      (some (String.mk (trimChars author)), String.mk (trimChars (joinSlash nameParts)))
  else
    (none, String.mk clean)

/-- The `FetchOptions` that `getSkillByScoped` passes to `fetchFromDB`
(skillsdb.ts lines 112–117): search = parsed name, author = parsed author,
limit 50, sortBy stars. -/
def scopedFetchOptions (scopedName : String) : FetchOptions :=
  let author := (parseScopedName scopedName).1
  let name := (parseScopedName scopedName).2
  { search := some name, author := author, limit := some 50, sortBy := some SortBy.stars }

/-- The predicate of `result.skills.find` in `getSkillByScoped`
(skillsdb.ts lines 120–123): name matches case-insensitively, and, when an
author was given (JS-truthy), the author matches case-insensitively too. -/
def exactMatchPred (author : Option String) (name : String) (s : DBSkill) : Bool :=
  lowerEq s.name name && (!strTruthy author || lowerEq s.author (author.getD ""))

/-- Selection core of `getSkillByScoped` (skillsdb.ts lines 109–132), applied
to the outcome of its one `fetchFromDB` call: first exact match if any,
else `null` when an author was given, else the first (top-ranked) record. -/
def getSkillByScopedCore (outcome : HttpOutcome) (scopedName : String) :
    Except String (Option DBSkill) :=
  let author := (parseScopedName scopedName).1
  match fetchFromDB outcome with
  | .error e => .error e
  | .ok result =>
    match result.skills.find? (exactMatchPred author (parseScopedName scopedName).2) with
    | some m => .ok (some m)
    | none =>
      if strTruthy author then .ok none
      else .ok result.skills.head?

/-- `getSkillByScoped` (skillsdb.ts lines 109–132), parameterized by the remote
database, modelled as a function from the fetch options to the HTTP outcome. -/
def getSkillByScoped (db : FetchOptions → HttpOutcome) (scopedName : String) :
    Except String (Option DBSkill) :=
  getSkillByScopedCore (db (scopedFetchOptions scopedName)) scopedName

/-! ## Legacy-marketplace fallback in the `install` command
(src/cli/index.ts lines 987–1005) -/

/-- A legacy marketplace search result as used by the `install` command's
fallback selection (index.ts lines 995–998): `s.author?` may be undefined. -/
structure LegacySkill where
  name : String
  author : Option String
  deriving Repr, DecidableEq

/-- The fallback selection expression (index.ts lines 995–998):
`skills.find(s => name matches && (!author || s.author? matches)) || skills[0]`. -/
def fallbackSelect (author : Option String) (name : String)
    (skills : List LegacySkill) : Option LegacySkill :=
  (skills.find? fun s =>
    lowerEq s.name name &&
      (!strTruthy author ||
        match s.author with
        | some a => lowerEq a (author.getD "")
        | none => false)).or skills.head?

/-- Which resolution path the `install` command ended on. -/
inductive ResolvedFrom where
  | db
  | fallback
  deriving Repr, DecidableEq

/-- The resolution step of the `install` command (index.ts lines 987–1005):
try `getSkillByScoped`; on a thrown error (and only then) fall back to the
legacy marketplace search and apply the fallback selection.  The second
component is the resolved skill; `none` means the command reports
"No skill found". -/
def installResolve (db : FetchOptions → HttpOutcome) (legacy : List LegacySkill)
    (scopedName : String) : ResolvedFrom × Option (Sum DBSkill LegacySkill) :=
  match getSkillByScoped db scopedName with
  | .ok skill => (ResolvedFrom.db, skill.map Sum.inl)
  | .error _ =>
    (ResolvedFrom.fallback,
      (fallbackSelect (parseScopedName scopedName).1 (parseScopedName scopedName).2
        legacy).map Sum.inr)

/-! ## Scratch directory names (index.ts lines 247, 1079, 1283)

Each generator is a function of the invocation's `Date.now()` value and the
invocation's random draw (`Math.random().toString(36).slice(2)`); a generator
whose template string does not interpolate the random draw ignores it. -/

/-- Temp name in `installSkillToplatforms` (index.ts line 247):
`skill-${Date.now()}-${Math.random().toString(36).slice(2)}`. -/
def mainFlowTempName (now : Nat) (rand : String) : String :=
  "skill-" ++ toString now ++ "-" ++ rand

/-- Temp name in the `install` command (index.ts line 1079):
`skill-${Date.now()}` — the random draw is unused. -/
def installCmdTempName (now : Nat) (_rand : String) : String :=
  "skill-" ++ toString now

/-- Temp name in the `add` command (index.ts line 1283):
`add-skill-${Date.now()}` — the random draw is unused. -/
def addCmdTempName (now : Nat) (_rand : String) : String :=
  "add-skill-" ++ toString now

/-! ## Source classification in the `add` command (`parseSource`,
index.ts lines 1199–1232) -/

/-- Match a literal regex fragment at the current position. -/
def stripLit : Chars → Chars → Option Chars
  | [], l => some l
  | _ :: _, [] => none
  | p :: ps, c :: cs => if p = c then stripLit ps cs else none

/-- The literal `github.com/` of the GitHub regexes. -/
def ghLit : Chars := ['g', 'i', 't', 'h', 'u', 'b', '.', 'c', 'o', 'm', '/']

/-- The literal `gitlab.com/` of the GitLab regex. -/
def glLit : Chars := ['g', 'i', 't', 'l', 'a', 'b', '.', 'c', 'o', 'm', '/']

/-- The literal `tree/` of the GitHub tree regex. -/
def treeLit : Chars := ['t', 'r', 'e', 'e', '/']

/-- Match `([^/]+)\/`: a nonempty greedy run of non-slash characters followed
by a slash; returns the captured run and the remainder after the slash. -/
def seg (l : Chars) : Option (Chars × Chars) :=
  match l.takeWhile (· ≠ '/'), l.dropWhile (· ≠ '/') with
  | [], _ => none
  | _, [] => none
  | run, _ :: rest => some (run, rest)

/-- What the JS `.` metacharacter matches: any character except a line
terminator. -/
def isDotChar (c : Char) : Bool := c ≠ '\n' && c ≠ '\r'

/-- The captures of `/github\.com\/([^/]+)\/([^/]+)\/tree\/([^/]+)\/(.+)/`
when the pattern matches at the current position: owner, repo, branch, and
the greedy `(.+)` capture. -/
def treeMatchAt (l : Chars) : Option (Chars × Chars × Chars × Chars) :=
  match stripLit ghLit l with
  | none => none
  | some l1 =>
    match seg l1 with
    | none => none
    | some (owner, l2) =>
      match seg l2 with
      | none => none
      | some (repo, l3) =>
        match stripLit treeLit l3 with
        | none => none
        | some l4 =>
          match seg l4 with
          | none => none
          | some (branch, l5) =>
            match l5.takeWhile isDotChar with
            | [] => none
            | rest => some (owner, repo, branch, rest)

/-- The captures of `/github\.com\/([^/]+)\/([^/]+)/` at the current
position. -/
def repoMatchAt (l : Chars) : Option (Chars × Chars) :=
  match stripLit ghLit l with
  | none => none
  | some l1 =>
    match seg l1 with
    | none => none
    | some (owner, l2) =>
      match l2.takeWhile (· ≠ '/') with
      | [] => none
      | repo => some (owner, repo)

/-- The captures of `/gitlab\.com\/([^/]+)\/([^/]+)/` at the current
position. -/
def gitlabMatchAt (l : Chars) : Option (Chars × Chars) :=
  match stripLit glLit l with
  | none => none
  | some l1 =>
    match seg l1 with
    | none => none
    | some (owner, l2) =>
      match l2.takeWhile (· ≠ '/') with
      | [] => none
      | repo => some (owner, repo)

/-- Unanchored regex search, as in `String.prototype.match`: try the pattern
at every position from the left; the leftmost match wins. -/
def searchMatch {α : Type} (m : Chars → Option α) : Chars → Option α
  | [] => m []
  | c :: cs => (m (c :: cs)).or (searchMatch m cs)

/-- The anchored shorthand regex `^([^/]+)\/([^/]+)(?:\/(.+))?$`: owner, repo,
and an optional subpath; the optional `(.+)` must reach the end of the string,
so it requires a nonempty remainder without line terminators. -/
def shorthandMatch (l : Chars) : Option (Chars × Chars × Option Chars) :=
  match seg l with
  | none => none
  | some (owner, l2) =>
    match l2.takeWhile (· ≠ '/'), l2.dropWhile (· ≠ '/') with
    | [], _ => none
    | repo, [] => some (owner, repo, none)
    | repo, _ :: rest =>
      if rest ≠ [] ∧ rest.all isDotChar then some (owner, repo, some rest) else none

/-- `repo.replace(/\.git$/, '')`: drop one trailing `.git`. -/
def stripGitSuffix (l : Chars) : Chars :=
  if l.reverse.take 4 = ['t', 'i', 'g', '.'] then (l.reverse.drop 4).reverse else l

/-- The `type` discriminator returned by `parseSource`. -/
inductive SourceType where
  | github
  | gitlab
  | git
  deriving Repr, DecidableEq

/-- The record returned by `parseSource`; an absent `subpath` is `none`. -/
structure ParsedSource where
  type : SourceType
  url : String
  subpath : Option String
  deriving Repr, DecidableEq

/-- `parseSource` (index.ts lines 1199–1232): ordered pattern match — GitHub
tree URL, GitHub URL, GitLab URL, `owner/repo[/subpath]` shorthand without a
colon, else raw git URL.  In the tree branch the branch capture is discarded
(`const [, owner, repo, , subpath] = githubTreeMatch`), exactly as in the
source. -/
def parseSource (input : String) : ParsedSource :=
  match searchMatch treeMatchAt input.data with
  | some (owner, repo, _branch, subpath) =>
    { type := .github
    , url := "https://github.com/" ++ String.mk owner ++ "/" ++ String.mk repo ++ ".git"
    , subpath := some (String.mk subpath) }
  | none =>
    match searchMatch repoMatchAt input.data with
    | some (owner, repo) =>
      { type := .github
      , url := "https://github.com/" ++ String.mk owner ++ "/"
          ++ String.mk (stripGitSuffix repo) ++ ".git"
      , subpath := none }
    | none =>
      match searchMatch gitlabMatchAt input.data with
      | some (owner, repo) =>
        { type := .gitlab
        , url := "https://gitlab.com/" ++ String.mk owner ++ "/"
            ++ String.mk (stripGitSuffix repo) ++ ".git"
        , subpath := none }
      | none =>
        match shorthandMatch input.data with
        | some (owner, repo, subpath) =>
          if input.data.contains ':' then { type := .git, url := input, subpath := none }
          else
            { type := .github
            , url := "https://github.com/" ++ String.mk owner ++ "/"
                ++ String.mk repo ++ ".git"
            , subpath := subpath.map String.mk }
        | none => { type := .git, url := input, subpath := none }

/-- Characters allowed in the owner / repo / branch segments of the verified
input families: no separator, no scheme colon, no dot, no line terminator. -/
def plainChar (c : Char) : Bool :=
  c ≠ '/' && c ≠ ':' && c ≠ '.' && c ≠ '\n' && c ≠ '\r'

/-! ## Agent configuration table (index.ts lines 49–118) -/

/-- One entry of the `AGENTS` record (index.ts `interface AgentConfig`). -/
structure AgentConfig where
  name : String
  displayName : String
  projectDir : String
  globalDir : String
  deriving Repr, DecidableEq

/-- The ten-entry `AGENTS` table (index.ts lines 49–111), with the home
directory as a parameter. -/
def AGENTS (home : String) : List (String × AgentConfig) :=
  [ ("cursor", ⟨"cursor", "Cursor", ".cursor/skills", home ++ "/.cursor/skills"⟩)
  , ("claude", ⟨"claude", "Claude Code", ".claude/skills", home ++ "/.claude/skills"⟩)
  , ("copilot", ⟨"copilot", "GitHub Copilot", ".github/skills", home ++ "/.github/skills"⟩)
  , ("codex", ⟨"codex", "Codex", ".codex/skills", home ++ "/.codex/skills"⟩)
  , ("antigravity", ⟨"antigravity", "Antigravity", ".agent/skills",
      home ++ "/.gemini/antigravity/skills"⟩)
  , ("opencode", ⟨"opencode", "OpenCode", ".opencode/skill", home ++ "/.config/opencode/skill"⟩)
  , ("amp", ⟨"amp", "Amp", ".agents/skills", home ++ "/.config/agents/skills"⟩)
  , ("kilo", ⟨"kilo", "Kilo Code", ".kilocode/skills", home ++ "/.kilocode/skills"⟩)
  , ("roo", ⟨"roo", "Roo Code", ".roo/skills", home ++ "/.roo/skills"⟩)
  , ("goose", ⟨"goose", "Goose", ".goose/skills", home ++ "/.config/goose/skills"⟩) ]

/-- JS property access `AGENTS[key]`: `none` for an unknown key. -/
def lookupAgent (home key : String) : Option AgentConfig :=
  ((AGENTS home).find? (fun e => e.1 = key)).map Prod.snd

/-- `Object.keys(AGENTS)` (the keys do not depend on the home directory). -/
def agentKeys : List String := (AGENTS "").map Prod.fst

/-! ## The `add` command (index.ts lines 1188–1408)

The command is modelled as a function of the outcomes of its I/O calls: the
clone result, the skills discovered in the scratch clone, the interactive
selections, and which `(skill, agent)` copy calls throw.  `tempRemoved`
records whether any `rm` of the scratch directory ran before the command
returned, and `attempted` records the `(skill, agent)` pairs whose copy was
started (in loop order, including a throwing one). -/

/-- A `{name, description, path}` entry of `discoverSkillsInDir`
(index.ts lines 1262–1266). -/
structure DiscoveredSkill where
  name : String
  description : String
  path : String
  deriving Repr, DecidableEq

/-- The `add` command's flags; an absent list flag is `[]`. -/
structure AddOptions where
  global : Bool
  list : Bool
  skill : List String
  agent : List String
  yes : Bool

/-- Outcomes of the `add` command's I/O calls. -/
structure AddWorld where
  cloneOk : Bool
  discovered : List DiscoveredSkill
  interactiveSkills : List DiscoveredSkill
  interactiveAgents : List String
  copyFails : String → String → Bool

/-- The exit path the `add` command took. -/
inductive AddExit where
  | cloneFailed
  | noSkillsFound
  | listed
  | noMatchingSkills
  | noSkillsSelected
  | noAgentsSelected
  | copyError (pair : String × String)
  | installed
  deriving Repr, DecidableEq

/-- Observable outcome of one `add` invocation. -/
structure AddResult where
  exit : AddExit
  tempRemoved : Bool
  attempted : List (String × String)
  deriving Repr, DecidableEq

/-- Skill selection (index.ts lines 1324–1350): explicit `--skill` names
filter case-insensitively (empty result exits), otherwise the interactive
checkbox runs when not `--yes` and more than one skill was found, otherwise
all discovered skills are selected; an empty selection exits. -/
def addSelectedSkills (w : AddWorld) (opts : AddOptions) :
    Sum AddExit (List DiscoveredSkill) :=
  if opts.skill ≠ [] then
    let selected := w.discovered.filter (fun s => opts.skill.any (fun n => lowerEq s.name n))
    if selected.isEmpty then Sum.inl AddExit.noMatchingSkills else Sum.inr selected
  else
    let selected :=
      if ¬opts.yes ∧ w.discovered.length > 1 then w.interactiveSkills else w.discovered
    if selected.isEmpty then Sum.inl AddExit.noSkillsSelected else Sum.inr selected

/-- Agent selection (index.ts lines 1352–1376): explicit `--agent` list, else
all agents under `--yes`, else the interactive checkbox; empty exits. -/
def addSelectedAgents (w : AddWorld) (opts : AddOptions) : Sum AddExit (List String) :=
  let agents :=
    if opts.agent ≠ [] then opts.agent
    else if opts.yes then agentKeys
    else w.interactiveAgents
  if agents.isEmpty then Sum.inl AddExit.noAgentsSelected else Sum.inr agents

/-- Inner agent loop of the install loop (index.ts lines 1384–1396): unknown
agents are skipped (`continue`); a throwing `cp` aborts the iteration with the
failing pair; the throwing pair itself counts as attempted. -/
def installLoopAgents (copyFails : String → String → Bool) (home skillName : String) :
    List String → List (String × String) × Option (String × String)
  | [] => ([], none)
  | a :: rest =>
    match lookupAgent home a with
    | none => installLoopAgents copyFails home skillName rest
    | some _ =>
      if copyFails skillName a then ([(skillName, a)], some (skillName, a))
      else
        let (att, err) := installLoopAgents copyFails home skillName rest
        ((skillName, a) :: att, err)

/-- Outer skill loop (index.ts lines 1383–1397): an exception from any pair
propagates, skipping all remaining pairs. -/
def installLoopSkills (copyFails : String → String → Bool) (home : String)
    (agents : List String) :
    List DiscoveredSkill → List (String × String) × Option (String × String)
  | [] => ([], none)
  | s :: rest =>
    match installLoopAgents copyFails home s.name agents with
    | (att, some e) => (att, some e)
    | (att, none) =>
      let (att2, err2) := installLoopSkills copyFails home agents rest
      (att ++ att2, err2)

/-- The `add` command (index.ts lines 1188–1408).  Every early-return path
removes the scratch directory with an explicit `rm` (lines 1293, 1304, 1320,
1332, 1348, 1374) and the success path removes it at line 1402; but the
install loop is not wrapped in `try`/`finally`, so a throwing copy jumps to
the outer `catch` (line 1404) without any `rm` — `tempRemoved := false`. -/
def addCommand (home : String) (w : AddWorld) (opts : AddOptions) : AddResult :=
  if w.cloneOk = false then { exit := .cloneFailed, tempRemoved := true, attempted := [] }
  else if w.discovered.isEmpty then
    { exit := .noSkillsFound, tempRemoved := true, attempted := [] }
  else if opts.list then { exit := .listed, tempRemoved := true, attempted := [] }
  else
    match addSelectedSkills w opts with
    | Sum.inl e => { exit := e, tempRemoved := true, attempted := [] }
    | Sum.inr selectedSkills =>
      match addSelectedAgents w opts with
      | Sum.inl e => { exit := e, tempRemoved := true, attempted := [] }
      | Sum.inr targetAgents =>
        match installLoopSkills w.copyFails home targetAgents selectedSkills with
        | (att, some pair) => { exit := .copyError pair, tempRemoved := false, attempted := att }
        | (att, none) => { exit := .installed, tempRemoved := true, attempted := att }

/-! ## The interactive main flow's parallel installer
(`installSkillToplatforms`, index.ts lines 220–286) -/

/-- A skill selected in the main menu (the `value` built at
index.ts lines 181–185). -/
structure SkillSel where
  name : String
  scopedName : String
  githubUrl : String
  deriving Repr, DecidableEq

/-- Outcomes of the I/O performed for one skill by
`installSkillToplatforms`. -/
structure SkillEnv where
  dbOutcome : HttpOutcome
  cloneThrows : Option String
  copyThrows : String → Option String

/-- The per-skill result object of `installSkillToplatforms`
(index.ts line 220): absent JS fields are `none`. -/
structure InstallResult where
  success : Bool
  name : String
  scopedName : Option String
  error : Option String
  deriving Repr, DecidableEq

/-- The platform copy loop (index.ts lines 254–265): platforms in order,
unknown platforms skipped (`continue`), first throwing copy propagates its
message. -/
def mainCopyLoop (env : SkillEnv) (home : String) : List String → Option String
  | [] => none
  | a :: rest =>
    match lookupAgent home a with
    | none => mainCopyLoop env home rest
    | some _ =>
      match env.copyThrows a with
      | some msg => some msg
      | none => mainCopyLoop env home rest

/-- The `try` body of `installSkillToplatforms` (index.ts lines 221–272):
resolve via the database, reject a missing record / missing URL / unparsable
URL with a per-item failure result, then clone and copy (either may throw,
modelled as `Except.error`). -/
def installBody (home : String) (selectedAgents : List String) (env : SkillEnv)
    (skill : SkillSel) : Except String InstallResult :=
  match getSkillByScopedCore env.dbOutcome
      (if skill.scopedName ≠ "" then skill.scopedName else skill.name) with
  | .error e => .error e
  | .ok none =>
    .ok { success := false, name := skill.name, scopedName := none
        , error := some "Skill not found" }
  | .ok (some dbSkill) =>
    if dbSkill.github_url = "" then
      .ok { success := false, name := skill.name, scopedName := none
          , error := some "No GitHub URL found" }
    else
      match searchMatch repoMatchAt dbSkill.github_url.data with
      | none =>
        .ok { success := false, name := skill.name, scopedName := none
            , error := some "Invalid GitHub URL" }
      | some _ =>
        match env.cloneThrows with
        | some msg => .error msg
        | none =>
          match mainCopyLoop env home selectedAgents with
          | some msg => .error msg
          | none =>
            .ok { success := true, name := dbSkill.name
                , scopedName := some (if dbSkill.scoped_name ≠ "" then dbSkill.scoped_name
                    else skill.scopedName)
                , error := none }

/-- `installSkillToplatforms` (index.ts lines 220–277): the whole body runs in
`try`/`catch`, so every thrown error becomes a per-item
`{success: false, error}` result — the function itself never throws. -/
def installSkillToplatforms (home : String) (selectedAgents : List String)
    (env : SkillEnv) (skill : SkillSel) : InstallResult :=
  match installBody home selectedAgents env skill with
  | .ok r => r
  | .error e => { success := false, name := skill.name, scopedName := none, error := some e }

/-- `Promise.all(selectedSkills.map(skill => installSkillToplatforms(skill)))`
(index.ts line 284): one result per selected skill, in order. -/
def installBatch (home : String) (selectedAgents : List String)
    (envOf : SkillSel → SkillEnv) (skills : List SkillSel) : List InstallResult :=
  skills.map (fun s => installSkillToplatforms home selectedAgents (envOf s) s)

/-! ## Export adapters (index.ts lines 1793–1814 and 1882–1896) -/

/-- The `{name, description}` front-matter of a loaded skill. -/
structure SkillMeta where
  name : String
  description : String
  deriving Repr, DecidableEq

/-- A fully loaded skill as consumed by the export adapters. -/
structure LoadedSkill where
  metadata : SkillMeta
  body : String
  deriving Repr, DecidableEq

/-- File system state: path (as the segment list given to `join`) to file
content; directories are implicit (`mkdir recursive` has no observable
effect on file contents). -/
def FileSys : Type := List String → Option String

/-- A file system with no files. -/
def emptyFS : FileSys := fun _ => none

/-- `writeFile`: full overwrite of one path. -/
def writeFileFS (fs : FileSys) (p : List String) (content : String) : FileSys :=
  fun q => if q = p then some content else fs q

/-- The marker-file content written by `exportToCopilot`
(index.ts lines 1804–1810): front-matter reduced to name and description,
then the body verbatim. -/
def copilotContent (s : LoadedSkill) : String :=
  "---\nname: " ++ s.metadata.name ++ "\ndescription: " ++ s.metadata.description
    ++ "\n---\n\n" ++ s.body ++ "\n"

/-- The output path of `exportToCopilot` for one skill:
`<projectDir>/.github/skills/<name>/SKILL.md`. -/
def copilotPath (projectDir : String) (s : LoadedSkill) : List String :=
  [projectDir, ".github", "skills", s.metadata.name, "SKILL.md"]

/-- `exportToCopilot` (index.ts lines 1793–1814): write each skill's marker
file by full overwrite. -/
def exportToCopilot (skills : List LoadedSkill) (projectDir : String) (fs : FileSys) :
    FileSys :=
  skills.foldl (fun acc s => writeFileFS acc (copilotPath projectDir s) (copilotContent s)) fs

/-- The flat workflow file written by `exportToAntigravity`
(index.ts lines 1887–1892): description truncated to 100 characters, then the
body verbatim. -/
def antigravityContent (s : LoadedSkill) : String :=
  "---\ndescription: " ++ String.mk (s.metadata.description.data.take 100)
    ++ "\n---\n\n" ++ s.body ++ "\n"

/-- The output path of `exportToAntigravity` for one skill:
`<projectDir>/.agent/workflows/<name>.md`. -/
def antigravityPath (projectDir : String) (s : LoadedSkill) : List String :=
  [projectDir, ".agent", "workflows", s.metadata.name ++ ".md"]

/-- `exportToAntigravity` (index.ts lines 1882–1896): write one flat file per
skill by full overwrite. -/
def exportToAntigravity (skills : List LoadedSkill) (projectDir : String) (fs : FileSys) :
    FileSys :=
  skills.foldl
    (fun acc s => writeFileFS acc (antigravityPath projectDir s) (antigravityContent s)) fs

/-- A list of writes applied in order (`writeFile` calls of one adapter
run). -/
def applyWrites (ws : List (List String × String)) (fs : FileSys) : FileSys :=
  ws.foldl (fun acc w => writeFileFS acc w.1 w.2) fs

/-! ## Concrete data used by witnesses and counterexamples -/

/-- A remote record named `pdf` published by author `other`. -/
def pdfByOther : DBSkill :=
  { id := "1", name := "pdf", author := "other", scoped_name := "other/pdf"
  , description := "pdf tools", stars := 900, forks := 3
  , github_url := "https://github.com/other/skills", raw_url := "r"
  , repo_full_name := "other/skills", path := "pdf", branch := "main" }

/-- A second remote record named `pdf` by author `acme`, fewer stars. -/
def pdfByAcme : DBSkill :=
  { id := "2", name := "pdf", author := "acme", scoped_name := "acme/pdf"
  , description := "acme pdf", stars := 10, forks := 0
  , github_url := "https://github.com/acme/skills", raw_url := "r"
  , repo_full_name := "acme/skills", path := "pdf", branch := "main" }

/-- A database whose only record for any query is `pdfByOther`. -/
def dbOnlyOther : FetchOptions → HttpOutcome :=
  fun _ => .response 200 (some ⟨[pdfByOther], 1⟩)

/-- A database that always fails at the network layer. -/
def dbDown : FetchOptions → HttpOutcome :=
  fun _ => .networkError "fetch failed"

/-- A database that always answers with a well-formed empty result. -/
def dbEmpty : FetchOptions → HttpOutcome :=
  fun _ => .response 200 (some ⟨[], 0⟩)

/-- A database answering every query with the two `pdf` records, highest
stars first. -/
def dbTwoPdf : FetchOptions → HttpOutcome :=
  fun _ => .response 200 (some ⟨[pdfByOther, pdfByAcme], 2⟩)

/-- A legacy search result list: one `pdf` by author `bob`. -/
def legacyPdfByBob : List LegacySkill := [⟨"pdf", some "bob"⟩]

/-- An `add` world with two discovered skills where copying `alpha` to
`cursor` (the very first pair) throws. -/
def worldCopyThrow : AddWorld :=
  { cloneOk := true
  , discovered := [⟨"alpha", "first skill", "skills/alpha"⟩,
      ⟨"beta", "second skill", "skills/beta"⟩]
  , interactiveSkills := []
  , interactiveAgents := []
  , copyFails := fun s a => s == "alpha" && a == "cursor" }

/-- The same world with no copy failure. -/
def worldCopyOk : AddWorld := { worldCopyThrow with copyFails := fun _ _ => false }

/-- The same world with a failing clone. -/
def worldCloneFail : AddWorld := { worldCopyThrow with cloneOk := false }

/-- The same world with an empty clone (zero skills found). -/
def worldNoSkills : AddWorld := { worldCopyThrow with discovered := [] }

/-- `add --yes --agent cursor claude copilot`. -/
def optsThreeAgents : AddOptions :=
  { global := false, list := false, skill := [], agent := ["cursor", "claude", "copilot"]
  , yes := true }

/-- `add --list` with the same agents. -/
def optsList : AddOptions := { optsThreeAgents with list := true }

/-- A loaded skill for the export witness. -/
def skillA : LoadedSkill := ⟨⟨"alpha", "first skill"⟩, "Body text."⟩

/-- A file system where every path already holds stale content. -/
def fsPre : FileSys := fun _ => some "stale"

deriving instance DecidableEq for Except

/-! ## Helper lemmas: list and matcher facts -/

theorem takeWhile_append_of_all (p : Char → Bool) (l r : Chars)
    (hl : ∀ c ∈ l, p c = true) (hr : ∀ c, r.head? = some c → p c = false) :
    (l ++ r).takeWhile p = l ∧ (l ++ r).dropWhile p = r := by
  induction l with
  | nil =>
    simp only [List.nil_append]
    cases r with
    | nil => exact ⟨rfl, rfl⟩
    | cons c cs =>
      have hc : p c = false := hr c rfl
      simp [List.takeWhile, List.dropWhile, hc]
  | cons c cs ih =>
    have hc : p c = true := hl c (by simp)
    have ih2 := ih (fun d hd => hl d (by simp [hd]))
    simp [List.takeWhile, List.dropWhile, hc, ih2.1, ih2.2]

theorem takeWhile_of_all (p : Char → Bool) (l : Chars) (h : ∀ c ∈ l, p c = true) :
    l.takeWhile p = l := by
  have := takeWhile_append_of_all p l [] h (fun c hc => by simp at hc)
  rw [List.append_nil] at this
  exact this.1

theorem dropWhile_of_all (p : Char → Bool) (l : Chars) (h : ∀ c ∈ l, p c = true) :
    l.dropWhile p = [] := by
  have := takeWhile_append_of_all p l [] h (fun c hc => by simp at hc)
  rw [List.append_nil] at this
  exact this.2

theorem seg_append (l r : Chars) (hne : l ≠ []) (hl : ∀ c ∈ l, c ≠ '/') :
    seg (l ++ '/' :: r) = some (l, r) := by
  have h := takeWhile_append_of_all (fun c => c ≠ '/') l ('/' :: r)
    (fun c hc => by simpa using hl c hc) (fun c hc => by simp at hc; simp [hc.symm])
  unfold seg
  rw [h.1, h.2]
  cases l with
  | nil => exact absurd rfl hne
  | cons a as => rfl

theorem seg_none (l : Chars) (hl : ∀ c ∈ l, c ≠ '/') : seg l = none := by
  have h := takeWhile_append_of_all (fun c => c ≠ '/') l []
    (fun c hc => by simpa using hl c hc) (fun c hc => by simp at hc)
  unfold seg
  rw [List.append_nil] at h
  rw [h.1, h.2]
  cases l <;> rfl

theorem searchMatch_cons_skip {α : Type} (m : Chars → Option α) (c : Char) (cs : Chars)
    (h : m (c :: cs) = none) : searchMatch m (c :: cs) = searchMatch m cs := by
  rw [searchMatch, h, Option.none_or]

theorem searchMatch_of_match {α : Type} (m : Chars → Option α) (l : Chars) (x : α)
    (h : m l = some x) : searchMatch m l = some x := by
  cases l with
  | nil => rw [searchMatch, h]
  | cons c cs => rw [searchMatch, h]; rfl

theorem searchMatch_eq_none {α : Type} (m : Chars → Option α) (l : Chars)
    (h : ∀ t : Chars, t <:+ l → m t = none) : searchMatch m l = none := by
  induction l with
  | nil => exact h [] (List.suffix_refl [])
  | cons c cs ih =>
    rw [searchMatch, h (c :: cs) (List.suffix_refl _), Option.none_or]
    exact ih (fun t ht => h t (ht.trans (List.suffix_cons c cs)))

theorem stripLit_mem (p : Chars) :
    ∀ (l r : Chars), stripLit p l = some r → ∀ c ∈ p, c ∈ l := by
  induction p with
  | nil => intro l r _ c hc; cases hc
  | cons a as ih =>
    intro l r h c hc
    cases l with
    | nil => cases h
    | cons b bs =>
      rw [stripLit] at h
      by_cases hab : a = b
      · rw [if_pos hab] at h
        rcases List.mem_cons.mp hc with rfl | hc2
        · simp [hab]
        · exact List.mem_cons_of_mem b (ih bs r h c hc2)
      · rw [if_neg hab] at h; cases h

theorem stripLit_append (p : Chars) : ∀ l : Chars, stripLit p (p ++ l) = some l := by
  induction p with
  | nil => intro l; rfl
  | cons a as ih => intro l; rw [List.cons_append, stripLit, if_pos rfl]; exact ih l

theorem treeMatchAt_nodot (l : Chars) (h : '.' ∉ l) : treeMatchAt l = none := by
  unfold treeMatchAt
  cases hs : stripLit ghLit l with
  | none => rfl
  | some l1 => exact absurd (stripLit_mem ghLit l l1 hs '.' (by simp [ghLit])) h

theorem repoMatchAt_nodot (l : Chars) (h : '.' ∉ l) : repoMatchAt l = none := by
  unfold repoMatchAt
  cases hs : stripLit ghLit l with
  | none => rfl
  | some l1 => exact absurd (stripLit_mem ghLit l l1 hs '.' (by simp [ghLit])) h

theorem gitlabMatchAt_nodot (l : Chars) (h : '.' ∉ l) : gitlabMatchAt l = none := by
  unfold gitlabMatchAt
  cases hs : stripLit glLit l with
  | none => rfl
  | some l1 => exact absurd (stripLit_mem glLit l l1 hs '.' (by simp [glLit])) h

theorem searchMatch_treeMatchAt_nodot (l : Chars) (h : '.' ∉ l) :
    searchMatch treeMatchAt l = none :=
  searchMatch_eq_none _ _ (fun t ht => treeMatchAt_nodot t (fun hc => h (ht.subset hc)))

theorem searchMatch_repoMatchAt_nodot (l : Chars) (h : '.' ∉ l) :
    searchMatch repoMatchAt l = none :=
  searchMatch_eq_none _ _ (fun t ht => repoMatchAt_nodot t (fun hc => h (ht.subset hc)))

theorem searchMatch_gitlabMatchAt_nodot (l : Chars) (h : '.' ∉ l) :
    searchMatch gitlabMatchAt l = none :=
  searchMatch_eq_none _ _ (fun t ht => gitlabMatchAt_nodot t (fun hc => h (ht.subset hc)))

theorem treeMatchAt_canonical (o r b p : Chars)
    (hoe : o ≠ []) (ho : ∀ c ∈ o, c ≠ '/')
    (hre : r ≠ []) (hr : ∀ c ∈ r, c ≠ '/')
    (hbe : b ≠ []) (hb : ∀ c ∈ b, c ≠ '/')
    (hpe : p ≠ []) (hp : ∀ c ∈ p, isDotChar c = true) :
    treeMatchAt (ghLit ++ (o ++ '/' :: (r ++ '/' :: (treeLit ++ (b ++ '/' :: p))))) =
      some (o, r, b, p) := by
  unfold treeMatchAt
  rw [stripLit_append]
  dsimp only
  rw [seg_append o _ hoe ho]
  dsimp only
  rw [seg_append r _ hre hr]
  dsimp only
  rw [stripLit_append]
  dsimp only
  rw [seg_append b _ hbe hb]
  dsimp only
  rw [takeWhile_of_all isDotChar p hp]
  cases p with
  | nil => exact absurd rfl hpe
  | cons a as => rfl

theorem treeMatchAt_plain_none (o r : Chars)
    (hoe : o ≠ []) (ho : ∀ c ∈ o, c ≠ '/') (hr : ∀ c ∈ r, c ≠ '/') :
    treeMatchAt (ghLit ++ (o ++ '/' :: r)) = none := by
  unfold treeMatchAt
  rw [stripLit_append]
  dsimp only
  rw [seg_append o _ hoe ho]
  dsimp only
  rw [seg_none r hr]

theorem repoMatchAt_canonical (o r : Chars)
    (hoe : o ≠ []) (ho : ∀ c ∈ o, c ≠ '/')
    (hre : r ≠ []) (hr : ∀ c ∈ r, c ≠ '/') :
    repoMatchAt (ghLit ++ (o ++ '/' :: r)) = some (o, r) := by
  unfold repoMatchAt
  rw [stripLit_append]
  dsimp only
  rw [seg_append o _ hoe ho]
  dsimp only
  rw [takeWhile_of_all _ r (fun c hc => by simpa using hr c hc)]
  cases r with
  | nil => exact absurd rfl hre
  | cons a as => rfl

theorem treeMatchAt_cons_ne (c : Char) (cs : Chars) (h : c ≠ 'g') :
    treeMatchAt (c :: cs) = none := by
  unfold treeMatchAt
  have hlit : stripLit ghLit (c :: cs) = none := by
    simp only [ghLit, stripLit]
    rw [if_neg (fun hh => h hh.symm)]
  rw [hlit]

theorem repoMatchAt_cons_ne (c : Char) (cs : Chars) (h : c ≠ 'g') :
    repoMatchAt (c :: cs) = none := by
  unfold repoMatchAt
  have hlit : stripLit ghLit (c :: cs) = none := by
    simp only [ghLit, stripLit]
    rw [if_neg (fun hh => h hh.symm)]
  rw [hlit]

/-- Walk a `https://`-prefixed github URL: the first eight characters cannot
start a match, the canonical position decides the result, and when it fails no
later position (inside the literal or the dot-free remainder) can match. -/
theorem searchMatch_httpsgh_eq {α : Type} (m : Chars → Option α) (X : Chars) (r : Option α)
    (hne : ∀ c cs, c ≠ 'g' → m (c :: cs) = none)
    (hdot : r = none → ∀ t : Chars, t <:+ X → m t = none)
    (hcanon : m (ghLit ++ X) = r) :
    searchMatch m ('h' :: 't' :: 't' :: 'p' :: 's' :: ':' :: '/' :: '/' ::(ghLit ++ X)) = r := by
  rw [searchMatch_cons_skip _ _ _ (hne _ _ (by decide))]
  rw [searchMatch_cons_skip _ _ _ (hne _ _ (by decide))]
  rw [searchMatch_cons_skip _ _ _ (hne _ _ (by decide))]
  rw [searchMatch_cons_skip _ _ _ (hne _ _ (by decide))]
  rw [searchMatch_cons_skip _ _ _ (hne _ _ (by decide))]
  rw [searchMatch_cons_skip _ _ _ (hne _ _ (by decide))]
  rw [searchMatch_cons_skip _ _ _ (hne _ _ (by decide))]
  rw [searchMatch_cons_skip _ _ _ (hne _ _ (by decide))]
  cases r with
  | some x => exact searchMatch_of_match m _ x hcanon
  | none =>
    show searchMatch m ('g' :: 'i' :: 't' :: 'h' :: 'u' :: 'b' :: '.' :: 'c' :: 'o' :: 'm' :: '/' ::X) = none
    rw [searchMatch_cons_skip m 'g' ('i' :: 't' :: 'h' :: 'u' :: 'b' :: '.' :: 'c' :: 'o' :: 'm' :: '/' ::X)
      hcanon]
    rw [searchMatch_cons_skip _ _ _ (hne _ _ (by decide))]
    rw [searchMatch_cons_skip _ _ _ (hne _ _ (by decide))]
    rw [searchMatch_cons_skip _ _ _ (hne _ _ (by decide))]
    rw [searchMatch_cons_skip _ _ _ (hne _ _ (by decide))]
    rw [searchMatch_cons_skip _ _ _ (hne _ _ (by decide))]
    rw [searchMatch_cons_skip _ _ _ (hne _ _ (by decide))]
    rw [searchMatch_cons_skip _ _ _ (hne _ _ (by decide))]
    rw [searchMatch_cons_skip _ _ _ (hne _ _ (by decide))]
    rw [searchMatch_cons_skip _ _ _ (hne _ _ (by decide))]
    rw [searchMatch_cons_skip _ _ _ (hne _ _ (by decide))]
    exact searchMatch_eq_none m X (hdot rfl)

theorem plainChar_props (l : Chars) (h : ∀ c ∈ l, plainChar c = true) :
    (∀ c ∈ l, c ≠ '/') ∧ '.' ∉ l ∧ ':' ∉ l := by
  refine ⟨fun c hc => ?_, fun hd => ?_, fun hd => ?_⟩
  · have := h c hc
    simp [plainChar] at this
    exact this.1.1.1.1
  · have := h '.' hd
    simp [plainChar] at this
  · have := h ':' hd
    simp [plainChar] at this

theorem stripGitSuffix_no_dot (l : Chars) (h : '.' ∉ l) : stripGitSuffix l = l := by
  unfold stripGitSuffix
  rw [if_neg]
  intro htake
  apply h
  have hmem : '.' ∈ l.reverse.take 4 := by rw [htake]; simp
  exact List.mem_reverse.mp (List.take_subset 4 l.reverse hmem)

theorem parseSource_github_plain (owner repo : String)
    (hoe : owner ≠ "") (hre : repo ≠ "")
    (ho : ∀ c ∈ owner.data, plainChar c = true)
    (hr : ∀ c ∈ repo.data, plainChar c = true) :
    parseSource ("https://github.com/" ++ owner ++ "/" ++ repo) =
      { type := .github
      , url := "https://github.com/" ++ owner ++ "/" ++ repo ++ ".git"
      , subpath := none } := by
  obtain ⟨hos, hod, -⟩ := plainChar_props owner.data ho
  obtain ⟨hrs, hrd, -⟩ := plainChar_props repo.data hr
  have hoe2 : owner.data ≠ [] := fun hd => hoe (String.ext hd)
  have hre2 : repo.data ≠ [] := fun hd => hre (String.ext hd)
  have hdata : ("https://github.com/" ++ owner ++ "/" ++ repo).data =
      'h' :: 't' :: 't' :: 'p' :: 's' :: ':' :: '/' :: '/' ::(ghLit ++ (owner.data ++ '/' :: repo.data)) := by
    simp only [String.data_append, List.append_assoc]
    rfl
  have hXdot : ∀ t : Chars, t <:+ owner.data ++ '/' :: repo.data → '.' ∉ t := by
    intro t ht hmem
    rcases List.mem_append.mp (ht.subset hmem) with h1 | h1
    · exact hod h1
    · rcases List.mem_cons.mp h1 with h2 | h2
      · exact absurd h2 (by decide)
      · exact hrd h2
  have htree : searchMatch treeMatchAt ("https://github.com/" ++ owner ++ "/" ++ repo).data
      = none := by
    rw [hdata]
    exact searchMatch_httpsgh_eq treeMatchAt _ none treeMatchAt_cons_ne
      (fun _ t ht => treeMatchAt_nodot t (hXdot t ht))
      (treeMatchAt_plain_none owner.data repo.data hoe2 hos hrs)
  have hrepo : searchMatch repoMatchAt ("https://github.com/" ++ owner ++ "/" ++ repo).data
      = some (owner.data, repo.data) := by
    rw [hdata]
    exact searchMatch_httpsgh_eq repoMatchAt _ _ repoMatchAt_cons_ne
      (fun _ t ht => repoMatchAt_nodot t (hXdot t ht))
      (repoMatchAt_canonical owner.data repo.data hoe2 hos hre2 hrs)
  unfold parseSource
  rw [htree, hrepo]
  dsimp only
  rw [stripGitSuffix_no_dot repo.data hrd]

theorem parseSource_github_tree (owner repo branch path : String)
    (hoe : owner ≠ "") (hre : repo ≠ "") (hbe : branch ≠ "") (hpe : path ≠ "")
    (ho : ∀ c ∈ owner.data, plainChar c = true)
    (hr : ∀ c ∈ repo.data, plainChar c = true)
    (hb : ∀ c ∈ branch.data, plainChar c = true)
    (hp : ∀ c ∈ path.data, isDotChar c = true) :
    parseSource ("https://github.com/" ++ owner ++ "/" ++ repo
        ++ "/tree/" ++ branch ++ "/" ++ path) =
      { type := .github
      , url := "https://github.com/" ++ owner ++ "/" ++ repo ++ ".git"
      , subpath := some path } := by
  obtain ⟨hos, -, -⟩ := plainChar_props owner.data ho
  obtain ⟨hrs, -, -⟩ := plainChar_props repo.data hr
  obtain ⟨hbs, -, -⟩ := plainChar_props branch.data hb
  have hoe2 : owner.data ≠ [] := fun hd => hoe (String.ext hd)
  have hre2 : repo.data ≠ [] := fun hd => hre (String.ext hd)
  have hbe2 : branch.data ≠ [] := fun hd => hbe (String.ext hd)
  have hpe2 : path.data ≠ [] := fun hd => hpe (String.ext hd)
  have hdata : ("https://github.com/" ++ owner ++ "/" ++ repo
      ++ "/tree/" ++ branch ++ "/" ++ path).data =
      'h' :: 't' :: 't' :: 'p' :: 's' :: ':' :: '/' :: '/' ::(ghLit ++ (owner.data ++ '/' ::
        (repo.data ++ '/' :: (treeLit ++ (branch.data ++ '/' :: path.data))))) := by
    simp only [String.data_append, List.append_assoc]
    rfl
  have htree : searchMatch treeMatchAt ("https://github.com/" ++ owner ++ "/" ++ repo
      ++ "/tree/" ++ branch ++ "/" ++ path).data =
      some (owner.data, repo.data, branch.data, path.data) := by
    rw [hdata]
    exact searchMatch_httpsgh_eq treeMatchAt _ _ treeMatchAt_cons_ne
      (fun hcontra => absurd hcontra (by simp))
      (treeMatchAt_canonical owner.data repo.data branch.data path.data
        hoe2 hos hre2 hrs hbe2 hbs hpe2 hp)
  unfold parseSource
  rw [htree]

theorem parseSource_shorthand (owner repo : String)
    (hoe : owner ≠ "") (hre : repo ≠ "")
    (ho : ∀ c ∈ owner.data, plainChar c = true)
    (hr : ∀ c ∈ repo.data, plainChar c = true) :
    parseSource (owner ++ "/" ++ repo) =
      { type := .github
      , url := "https://github.com/" ++ owner ++ "/" ++ repo ++ ".git"
      , subpath := none } := by
  obtain ⟨hos, hod, hoc⟩ := plainChar_props owner.data ho
  obtain ⟨hrs, hrd, hrc⟩ := plainChar_props repo.data hr
  have hoe2 : owner.data ≠ [] := fun hd => hoe (String.ext hd)
  have hre2 : repo.data ≠ [] := fun hd => hre (String.ext hd)
  have hdata : (owner ++ "/" ++ repo).data = owner.data ++ '/' :: repo.data := by
    simp only [String.data_append, List.append_assoc]
    rfl
  have hnodot : '.' ∉ owner.data ++ '/' :: repo.data := by
    intro hmem
    rcases List.mem_append.mp hmem with h1 | h1
    · exact hod h1
    · rcases List.mem_cons.mp h1 with h2 | h2
      · exact absurd h2 (by decide)
      · exact hrd h2
  have hshort : shorthandMatch (owner ++ "/" ++ repo).data =
      some (owner.data, repo.data, none) := by
    rw [hdata]
    unfold shorthandMatch
    rw [seg_append owner.data repo.data hoe2 hos]
    dsimp only
    rw [takeWhile_of_all _ repo.data (fun c hc => by simpa using hrs c hc),
      dropWhile_of_all _ repo.data (fun c hc => by simpa using hrs c hc)]
    cases hcase : repo.data with
    | nil => exact absurd hcase hre2
    | cons a as => rfl
  have hcolon : (owner ++ "/" ++ repo).data.contains ':' = false := by
    rw [hdata]
    simp only [List.contains]
    simp
    exact ⟨hoc, hrc⟩
  unfold parseSource
  rw [searchMatch_treeMatchAt_nodot _ (hdata ▸ hnodot),
    searchMatch_repoMatchAt_nodot _ (hdata ▸ hnodot),
    searchMatch_gitlabMatchAt_nodot _ (hdata ▸ hnodot), hshort]
  dsimp only
  rw [hcolon]
  simp

theorem installBody_ok (home : String) (agents : List String) (env2 : SkillEnv)
    (s : SkillSel) (r : InstallResult) (hb : installBody home agents env2 s = .ok r) :
    r.success = true ∨ r.error.isSome = true := by
  unfold installBody at hb
  split at hb
  · exact absurd hb (by simp)
  · injection hb with h2
    subst h2
    right
    rfl
  · split at hb
    · injection hb with h2
      subst h2
      right
      rfl
    · split at hb
      · injection hb with h2
        subst h2
        right
        rfl
      · split at hb
        · exact absurd hb (by simp)
        · split at hb
          · exact absurd hb (by simp)
          · injection hb with h2
            subst h2
            left
            rfl

theorem applyWrites_apply (ws : List (List String × String)) (fs : FileSys)
    (p : List String) :
    applyWrites ws fs p =
      match ws.reverse.find? (fun w => w.1 = p) with
      | some w => some w.2
      | none => fs p := by
  induction ws generalizing fs with
  | nil => rfl
  | cons w ws ih =>
    show applyWrites ws (writeFileFS fs w.1 w.2) p = _
    rw [ih]
    rw [List.reverse_cons, List.find?_append]
    cases hf : ws.reverse.find? (fun v => v.1 = p) with
    | some v => rfl
    | none =>
      by_cases hp : w.1 = p
      · simp [writeFileFS, hp, List.find?, Option.or]
      · simp [writeFileFS, hp, List.find?, Option.or]
        intro he
        exact absurd he.symm hp

theorem applyWrites_idem (ws : List (List String × String)) (fs : FileSys) :
    applyWrites ws (applyWrites ws fs) = applyWrites ws fs := by
  funext p
  rw [applyWrites_apply, applyWrites_apply]
  cases hf : ws.reverse.find? (fun w => w.1 = p) <;> simp [hf]

theorem applyWrites_written (ws : List (List String × String)) (fs g : FileSys)
    (p : List String) (hw : ∃ w ∈ ws, w.1 = p) :
    applyWrites ws fs p = applyWrites ws g p := by
  rw [applyWrites_apply, applyWrites_apply]
  cases hf : ws.reverse.find? (fun w => w.1 = p) with
  | some v => rfl
  | none =>
    exfalso
    obtain ⟨w, hmem, hp⟩ := hw
    have hne : ws.reverse.find? (fun w => w.1 = p) ≠ none := by
      have hsome : (ws.reverse.find? (fun w => (w.1 = p : Bool))).isSome = true := by
        rw [List.find?_isSome]
        exact ⟨w, List.mem_reverse.mpr hmem, by simp [hp]⟩
      intro hnone
      rw [hnone] at hsome
      cases hsome
    exact hne hf

theorem exportToCopilot_eq (skills : List LoadedSkill) (dir : String) (fs : FileSys) :
    exportToCopilot skills dir fs =
      applyWrites (skills.map (fun s => (copilotPath dir s, copilotContent s))) fs := by
  unfold exportToCopilot applyWrites
  rw [List.foldl_map]

theorem exportToAntigravity_eq (skills : List LoadedSkill) (dir : String) (fs : FileSys) :
    exportToAntigravity skills dir fs =
      applyWrites (skills.map (fun s => (antigravityPath dir s, antigravityContent s))) fs := by
  unfold exportToAntigravity applyWrites
  rw [List.foldl_map]

/-! ## Claim theorems -/

/-- C1: the claim says the `add` command's scratch directory is removed on
every exit path, in particular even when an individual copy throws.  The code
removes it on the clone-failure, zero-skills, `--list`, empty-selection and
success paths, but a throwing copy reaches the outer `catch` without any
`rm`: at the concrete failing input the command exits through the copy error
with `tempRemoved = false`, while every other exit path shown here removes
the scratch directory. -/
theorem addCommand_scratch_leak_on_copy_throw :
    addCommand "/home/user" worldCopyThrow optsThreeAgents =
      { exit := .copyError ("alpha", "cursor"), tempRemoved := false
      , attempted := [("alpha", "cursor")] }
    ∧ (addCommand "/home/user" worldCopyOk optsThreeAgents).tempRemoved = true
    ∧ (addCommand "/home/user" worldCloneFail optsThreeAgents).tempRemoved = true
    ∧ (addCommand "/home/user" worldNoSkills optsThreeAgents).tempRemoved = true
    ∧ (addCommand "/home/user" worldCopyOk optsList).tempRemoved = true := by
  refine ⟨by decide, by decide, by decide, by decide, by decide⟩

/-- C2: with a (truthy) author in the resolution input, `getSkillByScoped`
returns exactly the first record of the remote result list whose name and
author both match case-insensitively — and `none` when no such record exists,
regardless of same-name records by other authors. -/
theorem getSkillByScoped_author_exact
    (db : FetchOptions → HttpOutcome) (scopedName author name : String)
    (hparse : parseScopedName scopedName = (some author, name)) (hauthor : author ≠ "")
    (skills : List DBSkill) (total : Nat)
    (hdb : db (scopedFetchOptions scopedName) = .response 200 (some ⟨skills, total⟩)) :
    getSkillByScoped db scopedName =
      .ok (skills.find? fun s => lowerEq s.name name && lowerEq s.author author) := by
  unfold getSkillByScoped getSkillByScopedCore
  rw [hdb, hparse]
  have hpred : exactMatchPred (some author) name =
      fun s => lowerEq s.name name && lowerEq s.author author := by
    funext s
    simp [exactMatchPred, strTruthy, hauthor]
  simp only [fetchFromDB, resOk]
  norm_num
  rw [hpred]
  cases h : skills.find? (fun s => lowerEq s.name name && lowerEq s.author author) with
  | none => simp [strTruthy, hauthor]
  | some m => simp

/-- C2 witness: resolving `@acme/pdf` against a database holding only a
`pdf` record by a different author returns not-found. -/
theorem getSkillByScoped_author_exact_witness :
    getSkillByScoped dbOnlyOther "@acme/pdf" = .ok none := by
  have h := getSkillByScoped_author_exact dbOnlyOther "@acme/pdf" "acme" "pdf"
    (by decide) (by decide) [pdfByOther] 1 rfl
  rw [h]
  have hfind : List.find? (fun s => lowerEq s.name "pdf" && lowerEq s.author "acme")
      [pdfByOther] = none := by decide
  rw [hfind]

/-- C3: with no author in the resolution input and no exact case-insensitive
name match in the remote result list, `getSkillByScoped` returns the first
record of the list — the top-ranked match under the sort it requested, which
is `stars` — and not-found exactly when the list is empty. -/
theorem getSkillByScoped_noauthor_top
    (db : FetchOptions → HttpOutcome) (scopedName name : String)
    (hparse : parseScopedName scopedName = (none, name))
    (skills : List DBSkill) (total : Nat)
    (hdb : db (scopedFetchOptions scopedName) = .response 200 (some ⟨skills, total⟩))
    (hnone : skills.find? (fun s => lowerEq s.name name) = none) :
    getSkillByScoped db scopedName = .ok skills.head?
    ∧ (scopedFetchOptions scopedName).sortBy = some SortBy.stars
    ∧ (getSkillByScoped db scopedName = .ok none ↔ skills = []) := by
  have hmain : getSkillByScoped db scopedName = .ok skills.head? := by
    unfold getSkillByScoped getSkillByScopedCore
    rw [hdb, hparse]
    have hpred : exactMatchPred none name = fun s => lowerEq s.name name := by
      funext s
      simp [exactMatchPred, strTruthy]
    simp only [fetchFromDB, resOk]
    norm_num
    rw [hpred, hnone]
    simp [strTruthy]
  refine ⟨hmain, rfl, ?_⟩
  rw [hmain]
  constructor
  · intro h
    have hh : skills.head? = none := by
      cases hh : skills.head? with
      | none => rfl
      | some a => rw [hh] at h; cases h
    exact List.head?_eq_none_iff.mp hh
  · intro h; subst h; rfl

/-- C3 witness: resolving plain `pdfs` (no author, no exact name match)
against a list led by the highest-starred record returns that first record. -/
theorem getSkillByScoped_noauthor_top_witness :
    getSkillByScoped dbTwoPdf "pdfs" = .ok (some pdfByOther) := by
  have h := getSkillByScoped_noauthor_top dbTwoPdf "pdfs" "pdfs"
    (by decide) [pdfByOther, pdfByAcme] 2 rfl (by decide)
  rw [h.1]
  rfl

/-- C4 counterexample: the claim says the branch is correctly extracted when
present, but `parseSource` discards the branch capture — two tree URLs that
differ only in the branch produce identical classifications, whose record
carries no branch at all. -/
theorem parseSource_branch_dropped :
    parseSource "https://github.com/acme/kit/tree/dev/skills" =
      parseSource "https://github.com/acme/kit/tree/main/skills"
    ∧ parseSource "https://github.com/acme/kit/tree/dev/skills" =
      { type := SourceType.github, url := "https://github.com/acme/kit.git"
      , subpath := some "skills" } := by
  refine ⟨by decide, by decide⟩

/-- C4 amended: for every input of the form `owner/repo`,
`https://github.com/owner/repo`, or
`https://github.com/owner/repo/tree/branch/path` (segments nonempty, owner /
repo / branch free of `/`, `:`, `.` and line terminators, path free of line
terminators), `parseSource` yields `type = github` with owner and repo
correctly extracted into the clone URL and, for the tree form, the subpath
correctly extracted — the branch is discarded, not extracted. -/
theorem parseSource_github_forms (owner repo branch path : String)
    (hoe : owner ≠ "") (hre : repo ≠ "") (hbe : branch ≠ "") (hpe : path ≠ "")
    (ho : ∀ c ∈ owner.data, plainChar c = true)
    (hr : ∀ c ∈ repo.data, plainChar c = true)
    (hb : ∀ c ∈ branch.data, plainChar c = true)
    (hp : ∀ c ∈ path.data, isDotChar c = true) :
    parseSource (owner ++ "/" ++ repo) =
      { type := .github
      , url := "https://github.com/" ++ owner ++ "/" ++ repo ++ ".git"
      , subpath := none }
    ∧ parseSource ("https://github.com/" ++ owner ++ "/" ++ repo) =
      { type := .github
      , url := "https://github.com/" ++ owner ++ "/" ++ repo ++ ".git"
      , subpath := none }
    ∧ parseSource ("https://github.com/" ++ owner ++ "/" ++ repo
        ++ "/tree/" ++ branch ++ "/" ++ path) =
      { type := .github
      , url := "https://github.com/" ++ owner ++ "/" ++ repo ++ ".git"
      , subpath := some path } :=
  ⟨parseSource_shorthand owner repo hoe hre ho hr,
   parseSource_github_plain owner repo hoe hre ho hr,
   parseSource_github_tree owner repo branch path hoe hre hbe hpe ho hr hb hp⟩

/-- C4 amended witness: the three concrete forms for `acme/kit`, branch
`dev`, path `skills`. -/
theorem parseSource_github_forms_witness :
    parseSource "acme/kit" =
      { type := SourceType.github, url := "https://github.com/acme/kit.git"
      , subpath := none }
    ∧ parseSource "https://github.com/acme/kit" =
      { type := SourceType.github, url := "https://github.com/acme/kit.git"
      , subpath := none }
    ∧ parseSource "https://github.com/acme/kit/tree/dev/skills" =
      { type := SourceType.github, url := "https://github.com/acme/kit.git"
      , subpath := some "skills" } := by
  obtain ⟨h1, h2, h3⟩ := parseSource_github_forms "acme" "kit" "dev" "skills"
    (by decide) (by decide) (by decide) (by decide)
    (by decide) (by decide) (by decide) (by decide)
  exact ⟨h1, h2, h3⟩

/-- C5: the `install` command takes the legacy fallback path exactly when
`getSkillByScoped` throws; `fetchFromDB` throws on every network failure and
on every non-2xx status; and a well-formed response with zero skills triggers
no fallback and resolves on the database path to "no skill found". -/
theorem installResolve_fallback_iff_throw
    (db : FetchOptions → HttpOutcome) (legacy : List LegacySkill) (scopedName : String) :
    ((installResolve db legacy scopedName).1 = ResolvedFrom.fallback ↔
      isErr (getSkillByScoped db scopedName) = true)
    ∧ (∀ msg, isErr (fetchFromDB (HttpOutcome.networkError msg)) = true)
    ∧ (∀ status body, resOk status = false →
        isErr (fetchFromDB (HttpOutcome.response status body)) = true)
    ∧ (∀ total, db (scopedFetchOptions scopedName) = .response 200 (some ⟨[], total⟩) →
        installResolve db legacy scopedName = (ResolvedFrom.db, none)) := by
  refine ⟨?_, ?_, ?_, ?_⟩
  · cases h : getSkillByScoped db scopedName with
    | ok v => simp [installResolve, h, isErr]
    | error e => simp [installResolve, h, isErr]
  · intro msg; rfl
  · intro status body h
    simp [fetchFromDB, h, isErr]
  · intro total hdb
    have hok : getSkillByScoped db scopedName = .ok none := by
      unfold getSkillByScoped getSkillByScopedCore
      rw [hdb]
      simp only [fetchFromDB, resOk]
      norm_num
    simp [installResolve, hok]

/-- C5 witness: a network failure triggers the fallback; a network error and
a 500 status both throw; an empty well-formed result resolves on the
database path to "no skill found". -/
theorem installResolve_fallback_iff_throw_witness :
    (installResolve dbDown legacyPdfByBob "pdf").1 = ResolvedFrom.fallback
    ∧ isErr (fetchFromDB (HttpOutcome.networkError "fetch failed")) = true
    ∧ isErr (fetchFromDB (HttpOutcome.response 500 none)) = true
    ∧ installResolve dbEmpty legacyPdfByBob "pdf" = (ResolvedFrom.db, none) := by
  obtain ⟨h1, h2, h3, -⟩ := installResolve_fallback_iff_throw dbDown legacyPdfByBob "pdf"
  obtain ⟨-, -, -, h4⟩ := installResolve_fallback_iff_throw dbEmpty legacyPdfByBob "pdf"
  exact ⟨h1.mpr (by decide), h2 "fetch failed", h3 500 none (by decide), h4 0 rfl⟩

/-- C6: the claim says all (skill × agent) pairs are attempted even when one
copy throws.  In the code a single throwing copy aborts the nested install
loop: with two skills and three agents where the very first copy throws, only
one of the six pairs is attempted, while the same input without the failure
attempts all six in loop order. -/
theorem addCommand_aborts_remaining_pairs :
    (addCommand "/home/user" worldCopyThrow optsThreeAgents).attempted =
      [("alpha", "cursor")]
    ∧ addCommand "/home/user" worldCopyOk optsThreeAgents =
      { exit := .installed, tempRemoved := true
      , attempted := [("alpha", "cursor"), ("alpha", "claude"), ("alpha", "copilot"),
          ("beta", "cursor"), ("beta", "claude"), ("beta", "copilot")] } := by
  refine ⟨by decide, by decide⟩

/-- C7: the main flow's batch install produces exactly one result per
selected skill, the i-th result being that skill's own
`installSkillToplatforms` outcome, and every per-skill outcome is either a
success or a failure carrying an error message — a failing skill yields a
per-item result, never an exception that could abort the batch. -/
theorem installBatch_per_item (home : String) (agents : List String)
    (envOf : SkillSel → SkillEnv) (skills : List SkillSel) :
    (installBatch home agents envOf skills).length = skills.length
    ∧ (∀ i : Nat, (installBatch home agents envOf skills)[i]? =
        skills[i]?.map (fun s => installSkillToplatforms home agents (envOf s) s))
    ∧ (∀ s env2, (installSkillToplatforms home agents env2 s).success = true
        ∨ (installSkillToplatforms home agents env2 s).error.isSome = true) := by
  refine ⟨List.length_map _ _, fun i => List.getElem?_map _ _ _, fun s env2 => ?_⟩
  unfold installSkillToplatforms
  cases hb : installBody home agents env2 s with
  | error e => right; rfl
  | ok r =>
    have hres := installBody_ok home agents env2 s r hb
    simpa using hres

/-- C8: each export adapter is idempotent — running it again on its own
output changes nothing — and the content it leaves at each of its output
paths is independent of the pre-existing file system state (full overwrite,
no merging): a pure function of the loaded skill content. -/
theorem exportAdapters_idempotent (skills : List LoadedSkill) (dir : String) (fs : FileSys) :
    exportToCopilot skills dir (exportToCopilot skills dir fs) =
      exportToCopilot skills dir fs
    ∧ exportToAntigravity skills dir (exportToAntigravity skills dir fs) =
      exportToAntigravity skills dir fs
    ∧ (∀ s ∈ skills, ∀ g : FileSys,
        exportToCopilot skills dir fs (copilotPath dir s) =
          exportToCopilot skills dir g (copilotPath dir s))
    ∧ (∀ s ∈ skills, ∀ g : FileSys,
        exportToAntigravity skills dir fs (antigravityPath dir s) =
          exportToAntigravity skills dir g (antigravityPath dir s)) := by
  refine ⟨?_, ?_, ?_, ?_⟩
  · simp only [exportToCopilot_eq]
    exact applyWrites_idem _ _
  · simp only [exportToAntigravity_eq]
    exact applyWrites_idem _ _
  · intro s hs g
    simp only [exportToCopilot_eq]
    exact applyWrites_written _ _ _ _
      ⟨(copilotPath dir s, copilotContent s), List.mem_map_of_mem _ hs, rfl⟩
  · intro s hs g
    simp only [exportToAntigravity_eq]
    exact applyWrites_written _ _ _ _
      ⟨(antigravityPath dir s, antigravityContent s), List.mem_map_of_mem _ hs, rfl⟩

/-- C8 witness: on a concrete skill and a file system already holding stale
content everywhere, a second run reproduces the first run's state, and the
output file equals the one produced from an empty file system. -/
theorem exportAdapters_idempotent_witness :
    exportToCopilot [skillA] "proj" (exportToCopilot [skillA] "proj" fsPre) =
      exportToCopilot [skillA] "proj" fsPre
    ∧ exportToCopilot [skillA] "proj" fsPre (copilotPath "proj" skillA) =
      exportToCopilot [skillA] "proj" emptyFS (copilotPath "proj" skillA) := by
  obtain ⟨h1, -, h3, -⟩ := exportAdapters_idempotent [skillA] "proj" fsPre
  exact ⟨h1, h3 skillA (by simp) emptyFS⟩

/-- C9 counterexample: the `install` and `add` commands' scratch names are a
function of the timestamp alone — two invocations with the same `Date.now()`
value but different random draws produce identical temp paths. -/
theorem tempName_no_random_suffix :
    installCmdTempName 1736899200000 "a1b2c3" = installCmdTempName 1736899200000 "z9y8x7"
    ∧ addCmdTempName 1736899200000 "a1b2c3" = addCmdTempName 1736899200000 "z9y8x7"
    ∧ ("a1b2c3" : String) ≠ "z9y8x7" :=
  ⟨rfl, rfl, by decide⟩

/-- C9 amended: only the interactive main-flow installer combines the
timestamp with a random suffix (distinct draws give distinct paths at the
same millisecond); the `install` and `add` commands use the timestamp alone,
so any two same-millisecond invocations share a scratch path. -/
theorem tempName_uniqueness (now : Nat) (r1 r2 : String) (hr : r1 ≠ r2) :
    mainFlowTempName now r1 ≠ mainFlowTempName now r2
    ∧ (∀ s1 s2 : String, installCmdTempName now s1 = installCmdTempName now s2)
    ∧ (∀ s1 s2 : String, addCmdTempName now s1 = addCmdTempName now s2) := by
  refine ⟨?_, fun _ _ => rfl, fun _ _ => rfl⟩
  intro he
  apply hr
  have hd := congrArg String.data he
  simp only [mainFlowTempName, String.data_append, List.append_assoc] at hd
  exact String.ext (List.append_cancel_left (List.append_cancel_left
    (List.append_cancel_left hd)))

/-- C9 amended witness: concrete same-millisecond invocations. -/
theorem tempName_uniqueness_witness :
    mainFlowTempName 1736899200000 "a1b2c3" ≠ mainFlowTempName 1736899200000 "z9y8x7"
    ∧ installCmdTempName 1736899200000 "a1b2c3" =
        installCmdTempName 1736899200000 "z9y8x7" := by
  obtain ⟨h1, h2, -⟩ := tempName_uniqueness 1736899200000 "a1b2c3" "z9y8x7" (by decide)
  exact ⟨h1, h2 "a1b2c3" "z9y8x7"⟩

/-- C10: when the database lookup throws and, on the legacy fallback path, an
author was given but no legacy result matches both name and author exactly
(case-insensitively), the command proceeds with the first legacy result
rather than reporting not-found. -/
theorem installResolve_fallback_first
    (db : FetchOptions → HttpOutcome) (legacy : List LegacySkill)
    (scopedName author name : String)
    (hthrow : isErr (getSkillByScoped db scopedName) = true)
    (hparse : parseScopedName scopedName = (some author, name))
    (hauthor : author ≠ "")
    (hnoexact : legacy.find? (fun s =>
      lowerEq s.name name &&
        match s.author with
        | some a => lowerEq a author
        | none => false) = none)
    (hne : legacy ≠ []) :
    (installResolve db legacy scopedName).2 = legacy.head?.map Sum.inr
    ∧ (installResolve db legacy scopedName).2 ≠ none := by
  cases h : getSkillByScoped db scopedName with
  | ok v => rw [h] at hthrow; cases hthrow
  | error e =>
    have hsel : fallbackSelect (some author) name legacy = legacy.head? := by
      unfold fallbackSelect
      have hpred : (fun s : LegacySkill =>
          lowerEq s.name name &&
            (!strTruthy (some author) ||
              match s.author with
              | some a => lowerEq a ((some author).getD "")
              | none => false)) =
          (fun s : LegacySkill =>
          lowerEq s.name name &&
            match s.author with
            | some a => lowerEq a author
            | none => false) := by
        funext s
        simp [strTruthy, hauthor]
      rw [hpred, hnoexact]
      rfl
    have hmain : (installResolve db legacy scopedName).2 = legacy.head?.map Sum.inr := by
      simp [installResolve, h, hparse, hsel]
    refine ⟨hmain, ?_⟩
    rw [hmain]
    cases hh : legacy with
    | nil => exact absurd hh hne
    | cons a l => simp [hh]

/-- C10 witness: with the database down, resolving `@acme/pdf` against a
legacy list whose only `pdf` is by `bob` proceeds with that first result. -/
theorem installResolve_fallback_first_witness :
    (installResolve dbDown legacyPdfByBob "@acme/pdf").2 =
      legacyPdfByBob.head?.map Sum.inr
    ∧ (installResolve dbDown legacyPdfByBob "@acme/pdf").2 ≠ none :=
  installResolve_fallback_first dbDown legacyPdfByBob "@acme/pdf" "acme" "pdf"
    (by decide) (by decide) (by decide) (by decide) (by decide)

end AgentSkills
